import Mathlib

/-!
Verification of the superlandings version snapshot and diff engine.

The definitions below are a shallow embedding of the JavaScript source:

* `src/routes/landing-versions.js` — the diff engine
  (`computeLCS`, `computeHunks`, `computeFileDiffs`).
* `src/lib/versions.js` — the snapshot store
  (`createVersion`, `getVersions`, `getVersion`, `rollbackToVersion`,
  `deleteVersion`, `updateVersionMetadata`, `cleanupOldVersions`).

Modelling conventions:
* JS strings stay `String`; JS arrays become `List`.
* JS objects used as string-keyed maps become association lists
  `List (String × String)`; `obj[k]` (`undefined` when absent) becomes
  `List.lookup k` returning `Option`.
* The per-landing version store (one directory per version id, holding
  `metadata.json` and `content.zip`) becomes a `List StoredVersion` in
  directory-enumeration order; a version directory exists iff its record
  is in the list, so `fs.existsSync` checks collapse to list lookups.
* `Date.now()` and `new Date().toISOString()` become an explicit `now : Nat`
  clock argument; ISO timestamp comparison becomes `Nat` comparison.
* Thrown JS `Error`s become `Except String`; the error message identifies
  which `throw` fired.
* `Array.prototype.sort` with a consistent comparator is, per the ECMAScript
  specification, a stable sort; it is modelled by Mathlib's stable
  `List.insertionSort` on the relation induced by the comparator.
-/

namespace SuperLandings

/-! ## Diff engine (src/routes/landing-versions.js) -/

/-- The `type` field of a change entry: `'add' | 'remove' | 'context'`. -/
inductive ChangeType
  | add
  | remove
  | context
deriving DecidableEq

/-- One entry of a hunk's `changes` array: `{type, line, lineNumber}`. -/
structure Change where
  type : ChangeType
  line : String
  lineNumber : Nat
deriving DecidableEq

/-- A diff hunk for a modified file: `{oldStart, newStart, changes}`. -/
structure Hunk where
  oldStart : Nat
  newStart : Nat
  changes : List Change
deriving DecidableEq

/-- One element of the list returned by `computeLCS`:
`{oldIdx, newIdx, line}` (landing-versions.js line 356). -/
structure LcsEntry where
  oldIdx : Nat
  newIdx : Nat
  line : String
deriving DecidableEq

/-- The dynamic-programming table of `computeLCS` (landing-versions.js
lines 334–351): `dp a b i j` is the value `dp[i][j]`, the LCS length of the
first `i` lines of `a` and the first `j` lines of `b`.  Out-of-range reads
use the `""` default; the source only ever evaluates in-range cells. -/
def dp (a b : List String) : Nat → Nat → Nat
  | 0, _ => 0
  | _+1, 0 => 0
  | i+1, j+1 =>
    if a.getD i "" = b.getD j "" then dp a b i j + 1
    else max (dp a b i (j+1)) (dp a b (i+1) j)
termination_by i j => i + j

/-- The backtracking loop of `computeLCS` (landing-versions.js lines 353–365),
written as recursion on the pair of indices: the JS `while (i > 0 && j > 0)`
loop that `unshift`s matched pairs becomes an append on the recursive call. -/
def backtrackLCS (a b : List String) : Nat → Nat → List LcsEntry
  | i+1, j+1 =>
    if a.getD i "" = b.getD j "" then
      backtrackLCS a b i j ++ [{ oldIdx := i, newIdx := j, line := a.getD i "" }]
    else if dp a b i (j+1) > dp a b (i+1) j then backtrackLCS a b i (j+1)
    else backtrackLCS a b (i+1) j
  | _, _ => []
termination_by i j => i + j

/-- `computeLCS(oldLines, newLines)` (landing-versions.js lines 333–367):
builds the DP table and backtracks from `dp[m][n]`. -/
def computeLCS (oldLines newLines : List String) : List LcsEntry :=
  backtrackLCS oldLines newLines oldLines.length newLines.length

/-- The changes pushed by the JS loop
`while (oldIdx < stop) push {type:'remove', line:oldLines[oldIdx], lineNumber:oldIdx+1}`
(landing-versions.js lines 280–283 and 313–316). -/
def removeRun (a : List String) (start stop : Nat) : List Change :=
  (List.range (stop - start)).map fun k =>
    { type := ChangeType.remove, line := a.getD (start + k) "", lineNumber := start + k + 1 }

/-- The changes pushed by the JS loop
`while (newIdx < stop) push {type:'add', line:newLines[newIdx], lineNumber:newIdx+1}`
(landing-versions.js lines 286–289 and 318–321). -/
def addRun (b : List String) (start stop : Nat) : List Change :=
  (List.range (stop - start)).map fun k =>
    { type := ChangeType.add, line := b.getD (start + k) "", lineNumber := start + k + 1 }

/-- The mutable state of the `computeHunks` walk: `oldIdx`, `newIdx`,
`currentHunk` and the accumulated `hunks` array. -/
structure WalkSt where
  oldIdx : Nat
  newIdx : Nat
  cur : Option Hunk
  hunks : List Hunk
deriving DecidableEq

/-- One iteration of the `for (const match of lcs)` loop of `computeHunks`
(landing-versions.js lines 271–302): open/extend the current hunk with the
removed and added runs before the match, close a non-empty current hunk with
one context entry for the matched line, then advance both indices past it.
The JS `while` loops leave each index at `max` of its old value and the
match index. -/
def stepMatch (a b : List String) (m : LcsEntry) (s0 : WalkSt) : WalkSt :=
  let s1 :=
    if s0.oldIdx < m.oldIdx ∨ s0.newIdx < m.newIdx then
      let cur0 := s0.cur.getD { oldStart := s0.oldIdx + 1, newStart := s0.newIdx + 1, changes := [] }
      let cur1 := { cur0 with changes :=
        cur0.changes ++ removeRun a s0.oldIdx m.oldIdx ++ addRun b s0.newIdx m.newIdx }
      { s0 with oldIdx := max s0.oldIdx m.oldIdx, newIdx := max s0.newIdx m.newIdx,
                cur := some cur1 }
    else s0
  let s2 : WalkSt :=
    match s1.cur with
    | some c =>
      if c.changes.length > 0 then
        { s1 with
          hunks := s1.hunks ++ [{ c with changes := c.changes ++
            [{ type := ChangeType.context, line := a.getD s1.oldIdx "",
               lineNumber := s1.oldIdx + 1 }] }],
          cur := none }
      else s1
    | none => s1
  { s2 with oldIdx := s2.oldIdx + 1, newIdx := s2.newIdx + 1 }

/-- The trailing block of `computeHunks` (landing-versions.js lines 304–327):
after the last match, remaining old lines become removes and remaining new
lines become adds in one final hunk, pushed if non-empty. -/
def finishWalk (a b : List String) (s : WalkSt) : List Hunk :=
  if s.oldIdx < a.length ∨ s.newIdx < b.length then
    let cur0 := s.cur.getD { oldStart := s.oldIdx + 1, newStart := s.newIdx + 1, changes := [] }
    let cur1 := { cur0 with changes :=
      cur0.changes ++ removeRun a s.oldIdx a.length ++ addRun b s.newIdx b.length }
    if cur1.changes.length > 0 then s.hunks ++ [cur1] else s.hunks
  else s.hunks

/-- `computeHunks(oldContent, newContent)` (landing-versions.js lines
256–330): split both texts on `'\n'`, compute the LCS alignment, then walk
both line lists in lockstep with it. -/
def computeHunks (oldContent newContent : String) : List Hunk :=
  let oldLines := oldContent.splitOn "\n"
  let newLines := newContent.splitOn "\n"
  let lcs := computeLCS oldLines newLines
  let s := lcs.foldl (fun st m => stepMatch oldLines newLines m st)
    { oldIdx := 0, newIdx := 0, cur := none, hunks := [] }
  finishWalk oldLines newLines s

/-- The single hunk of a deleted or added file diff (landing-versions.js
lines 230 and 237): `{oldStart, oldLines, newStart, newLines}`. -/
structure WholeHunk where
  oldStart : Nat
  oldLines : List String
  newStart : Nat
  newLines : List String
deriving DecidableEq

/-- One element of the `diffs` array of `computeFileDiffs`.  The JS object
shapes differ by `type`, so each `type` is a constructor. -/
inductive FileDiff
  | deleted (filename : String) (hunk : WholeHunk)
  | added (filename : String) (hunk : WholeHunk)
  | modified (filename : String) (hunks : List Hunk)
deriving DecidableEq

/-- The `filename` field shared by all three `FileDiff` shapes. -/
def FileDiff.filename : FileDiff → String
  | .deleted f _ => f
  | .added f _ => f
  | .modified f _ => f

/-- `new Set([...keysNew, ...keysOld])` iterated in insertion order:
keeps the first occurrence of each key. -/
def setUnion (keys : List String) : List String :=
  keys.foldl (fun acc k => if k ∈ acc then acc else acc ++ [k]) []

/-- The loop body of `computeFileDiffs` (landing-versions.js lines 221–249):
classify one path of the key-set union as deleted, added, modified
(non-identical text with at least one hunk) or unchanged (omitted).  The
`(none, none)` match arm is unreachable because every path handed to it is
drawn from the union of the key sets. -/
def classifyFile (newFiles oldFiles : List (String × String)) (filename : String) :
    Option FileDiff :=
  match List.lookup filename newFiles, List.lookup filename oldFiles with
  | none, some oldContent =>
    some (FileDiff.deleted filename
      { oldStart := 1, oldLines := oldContent.splitOn "\n", newStart := 0, newLines := [] })
  | some newContent, none =>
    some (FileDiff.added filename
      { oldStart := 0, oldLines := [], newStart := 1, newLines := newContent.splitOn "\n" })
  | some newContent, some oldContent =>
    if newContent ≠ oldContent then
      let hunks := computeHunks oldContent newContent
      if hunks.length > 0 then some (FileDiff.modified filename hunks) else none
    else none
  | none, none => none

/-- `computeFileDiffs(newFiles, oldFiles)` (landing-versions.js lines
217–253): classify every path in the union of the two key sets, keeping the
paths that produced a diff. -/
def computeFileDiffs (newFiles oldFiles : List (String × String)) : List FileDiff :=
  let allFiles := setUnion (newFiles.map Prod.fst ++ oldFiles.map Prod.fst)
  allFiles.filterMap (classifyFile newFiles oldFiles)

/-! ## Snapshot store (src/lib/versions.js) -/

/-- The version metadata record written to `metadata.json` by `createVersion`
(versions.js lines 64–76) and mutated by `updateVersionMetadata`.
`id` and `createdAt` (both derived from the creation-time clock) are `Nat`;
`tag : Option String` models the JS `string | null`; `updatedAt` is absent
until the first metadata update. -/
structure Version where
  id : Nat
  landingId : String
  landingSlug : String
  landingType : String
  versionNumber : Nat
  description : String
  tag : Option String
  createdAt : Nat
  size : Nat
  auditId : Option String
  updatedAt : Option Nat
deriving DecidableEq

/-- One version directory `versions/<landingId>/<versionId>/`: the metadata
record plus the archived file set of `content.zip` (path → text). -/
structure StoredVersion where
  meta : Version
  content : List (String × String)
deriving DecidableEq

/-- The mutable state touched by the snapshot store for one landing: its
version directories (in enumeration order), its live directory (`none` when
the directory does not exist), and the landing's current-version pointer
kept in the db (versions.js lines 181–188). -/
structure LandingState where
  versions : List StoredVersion
  live : Option (List (String × String))
  currentVersionId : Option Nat
  currentVersionNumber : Option Nat
deriving DecidableEq

/-- The fields of the `landing` argument read by `createVersion` and
`rollbackToVersion`. -/
structure Landing where
  id : String
  slug : String
  type : String
deriving DecidableEq

/-- The sort relation of `getVersions` (versions.js line 128): the comparator
`(a, b) => new Date(b.createdAt) - new Date(a.createdAt)` orders `a` before
`b` exactly when `b.createdAt ≤ a.createdAt`. -/
def createdDesc (a b : Version) : Prop :=
  b.createdAt ≤ a.createdAt

instance : DecidableRel createdDesc := fun a b =>
  inferInstanceAs (Decidable (b.createdAt ≤ a.createdAt))

instance : IsTotal Version createdDesc :=
  ⟨fun a b => Nat.le_total b.createdAt a.createdAt⟩

instance : IsTrans Version createdDesc :=
  ⟨fun _ _ _ hab hbc => Nat.le_trans hbc hab⟩

/-- `getVersions(landingId)` (versions.js lines 105–132): read every version
directory's metadata, then sort newest-first by `createdAt`.  The JS stable
sort is modelled by the stable `List.insertionSort`. -/
def getVersions (st : LandingState) : List Version :=
  List.insertionSort createdDesc (st.versions.map StoredVersion.meta)

/-- `getNextVersionNumber(landingId)` (versions.js lines 26–38): 1 when no
versions exist, otherwise one more than the highest `versionNumber`.  The JS
guard `v.versionNumber && v.versionNumber > maxNumber` skips falsy (zero)
numbers. -/
def getNextVersionNumber (st : LandingState) : Nat :=
  let versions := getVersions st
  if versions.length = 0 then 1
  else (versions.foldl
    (fun maxNumber v =>
      if v.versionNumber ≠ 0 ∧ v.versionNumber > maxNumber then v.versionNumber
      else maxNumber) 0) + 1

/-- The byte size reported by `fs.statSync(zipPath).size` for the written
archive, modelled as a deterministic function of the archived file set. -/
def zipSize (files : List (String × String)) : Nat :=
  (files.map fun e => e.2.length).sum

/-- Writing the version directory `versions/<landingId>/<versionId>/`
(versions.js lines 49–81): `mkdirSync` plus the two file writes overwrite an
existing directory with the same id, otherwise a new directory appears. -/
def insertVersion (versions : List StoredVersion) (v : StoredVersion) : List StoredVersion :=
  if versions.any (fun w => w.meta.id == v.meta.id) then
    versions.map fun w => if w.meta.id == v.meta.id then v else w
  else versions ++ [v]

/-- `cleanupOldVersions(landingId, keepCount)` (versions.js lines 244–249):
kept for compatibility, touches nothing and returns 0. -/
def cleanupOldVersions (st : LandingState) (keepCount : Nat) : Nat × LandingState :=
  (0, st)

/-- `createVersion(landing, description, auditId)` (versions.js lines
41–86): `null` when the landing directory does not exist; otherwise archive
the live files, assign the next version number, write the version directory,
call the no-op cleanup and return the metadata.  `Date.now()` is the `now`
argument, used for both the version id and `createdAt`. -/
def createVersion (landing : Landing) (st : LandingState) (now : Nat)
    (description : String) (auditId : Option String) : Option Version × LandingState :=
  match st.live with
  | none => (none, st)
  | some files =>
    let versionNumber := getNextVersionNumber st
    let metadata : Version :=
      { id := now
        landingId := landing.id
        landingSlug := landing.slug
        landingType := landing.type
        versionNumber := versionNumber
        description := description
        tag := none
        createdAt := now
        size := zipSize files
        auditId := auditId
        updatedAt := none }
    let st1 := { st with versions := insertVersion st.versions { meta := metadata, content := files } }
    let st2 := (cleanupOldVersions st1 10).2
    (some metadata, st2)

/-- The metadata record written by a successful `createVersion` call
(versions.js lines 64–76), named so theorems can refer to it. -/
def createdMetadata (landing : Landing) (st : LandingState) (now : Nat)
    (description : String) (auditId : Option String) (files : List (String × String)) : Version :=
  { id := now
    landingId := landing.id
    landingSlug := landing.slug
    landingType := landing.type
    versionNumber := getNextVersionNumber st
    description := description
    tag := none
    createdAt := now
    size := zipSize files
    auditId := auditId
    updatedAt := none }

/-- `getVersion(landingId, versionId)` (versions.js lines 135–143): the
metadata record of the given version directory, or `null`. -/
def getVersion (st : LandingState) (versionId : Nat) : Option Version :=
  (st.versions.find? fun w => w.meta.id == versionId).map StoredVersion.meta

/-- JS truthiness of the `tag` field: `null` and the empty string are falsy,
every other string is truthy. -/
def tagTruthy : Option String → Bool
  | none => false
  | some t => t != ""

/-- `deleteVersion(landingId, versionId)` (versions.js lines 196–212):
throw when the version exists and its tag is truthy; otherwise remove the
version directory and report whether it existed. -/
def deleteVersion (st : LandingState) (versionId : Nat) :
    Except String (Bool × LandingState) :=
  match getVersion st versionId with
  | some v =>
    if tagTruthy v.tag then
      Except.error "Cannot delete version - tagged versions are protected from deletion"
    else
      Except.ok (true, { st with versions := st.versions.filter fun w => w.meta.id != versionId })
  | none => Except.ok (false, st)

/-- `updateVersionMetadata(landingId, versionId, updates)` (versions.js
lines 215–241): throw `'Version not found'` when the version directory is
absent; otherwise overwrite `description` and 'tag' exactly when the update
object provides them (`Option` models a possibly absent JS field, so the tag
update is an `Option (Option String)`), unconditionally set `updatedAt`, and
write the record back. -/
def updateVersionMetadata (st : LandingState) (versionId : Nat)
    (descriptionUpdate : Option String) (tagUpdate : Option (Option String)) (now : Nat) :
    Except String (Version × LandingState) :=
  match st.versions.find? (fun w => w.meta.id == versionId) with
  | none => Except.error "Version not found"
  | some sv =>
    let m1 := match descriptionUpdate with
      | some d => { sv.meta with description := d }
      | none => sv.meta
    let m2 := match tagUpdate with
      | some t => { m1 with tag := t }
      | none => m1
    let m3 := { m2 with updatedAt := some now }
    Except.ok (m3,
      { st with versions := st.versions.map fun w =>
          if w.meta.id == versionId then { w with meta := m3 } else w })

/-- `rollbackToVersion(landing, versionId)` (versions.js lines 146–193):
fail when the target archive is missing; otherwise snapshot the live state
as `'Backup before rollback'`, clear the live directory and extract the
target archive into it, then point the landing's db record at the target
version.  The db lookup `db.landings.findIndex` is modelled as always
finding the landing whose state is being threaded. -/
def rollbackToVersion (landing : Landing) (st : LandingState) (versionId : Nat)
    (now : Nat) : Except String (Bool × LandingState) :=
  match st.versions.find? (fun w => w.meta.id == versionId) with
  | none => Except.error "Version content not found"
  | some sv =>
    let st1 := (createVersion landing st now "Backup before rollback" none).2
    let st2 := { st1 with live := some sv.content }
    let st3 := match getVersion st2 versionId with
      | some v => { st2 with currentVersionId := some v.id,
                             currentVersionNumber := some v.versionNumber }
      | none => st2
    Except.ok (true, st3)

/-! ## Spec-side definitions

Definitions in this section are written from the specification's words, not
from the source; they exist to be compared with the embedded code. -/

/-- Modelled from the spec: the lockstep walk of §4.4 `computeHunks`.  Runs
of old lines before the next matched pair become `remove` entries and runs
of new lines become `add` entries in a hunk starting at the current 1-based
positions; the matched line closes that hunk as its single `context` entry;
a trailing hunk absorbs the unmatched lines after the last match. -/
def hunksSpec (a b : List String) : List LcsEntry → Nat → Nat → List Hunk
  | [], oi, nj =>
    if oi < a.length ∨ nj < b.length then
      [{ oldStart := oi + 1, newStart := nj + 1,
         changes := removeRun a oi a.length ++ addRun b nj b.length }]
    else []
  | e :: rest, oi, nj =>
    if oi < e.oldIdx ∨ nj < e.newIdx then
      { oldStart := oi + 1, newStart := nj + 1,
        changes := removeRun a oi e.oldIdx ++ addRun b nj e.newIdx ++
          [{ type := ChangeType.context, line := a.getD e.oldIdx "",
             lineNumber := e.oldIdx + 1 }] } :: hunksSpec a b rest (e.oldIdx + 1) (e.newIdx + 1)
    else hunksSpec a b rest (e.oldIdx + 1) (e.newIdx + 1)

/-- Modelled from the spec: the ordering claimed for `listVersions` —
newest-first by `createdAt`, ties broken by `sequenceNumber` descending. -/
def newestFirstSpec (a b : Version) : Prop :=
  b.createdAt < a.createdAt ∨ (b.createdAt = a.createdAt ∧ b.versionNumber ≤ a.versionNumber)

instance : DecidableRel newestFirstSpec := fun a b =>
  inferInstanceAs (Decidable (b.createdAt < a.createdAt ∨
    (b.createdAt = a.createdAt ∧ b.versionNumber ≤ a.versionNumber)))

/-- The matched-pair list is componentwise monotone when walked from the
index pair `(oi, nj)`: each entry lies at or beyond the current indices and
the walk resumes just past it. -/
def IncrFrom : Nat → Nat → List LcsEntry → Prop
  | _, _, [] => True
  | oi, nj, e :: rest => oi ≤ e.oldIdx ∧ nj ≤ e.newIdx ∧ IncrFrom (e.oldIdx + 1) (e.newIdx + 1) rest

/-- `n` consecutive `createVersion` calls with strictly increasing clock
values `base, base + 1, …` and no interleaved deletes. -/
def createMany (landing : Landing) (st : LandingState) (base : Nat) : Nat → LandingState
  | 0 => st
  | n+1 => (createVersion landing (createMany landing st base n) (base + n) "" none).2

/-! ## Concrete states used by counterexamples and witnesses -/

/-- A landing record for concrete runs. -/
def demoLanding : Landing := ⟨"L1", "landing-one", "html"⟩

/-- A live file set for concrete runs. -/
def demoFiles : List (String × String) := [("index.html", "A")]

/-- A fresh landing state: no versions yet, live directory present. -/
def freshState : LandingState := ⟨[], some demoFiles, none, none⟩

/-- First create in the C1 run (clock 10). -/
def seqStepA : Option Version × LandingState := createVersion demoLanding freshState 10 "" none

/-- Second create in the C1 run (clock 20). -/
def seqStepB : Option Version × LandingState := createVersion demoLanding seqStepA.2 20 "" none

/-- Deleting the second (highest-numbered) version of the C1 run. -/
def seqDelete : Except String (Bool × LandingState) := deleteVersion seqStepB.2 20

/-- The state after that delete. -/
def seqStateAfterDelete : LandingState :=
  match seqDelete with
  | Except.ok p => p.2
  | Except.error _ => seqStepB.2

/-- Third create in the C1 run (clock 30), after the delete. -/
def seqStepC : Option Version × LandingState :=
  createVersion demoLanding seqStateAfterDelete 30 "" none

/-- A version carrying the empty-string tag (non-null but falsy in JS). -/
def emptyTagVersion : Version :=
  ⟨7, "L1", "landing-one", "html", 1, "", some "", 100, 0, none, none⟩

/-- A state holding only the empty-string-tagged version. -/
def emptyTagState : LandingState := ⟨[⟨emptyTagVersion, []⟩], none, none, none⟩

/-- A version protected by a real tag. -/
def taggedVersion : Version :=
  ⟨7, "L1", "landing-one", "html", 1, "", some "release-1.0", 100, 0, none, none⟩

/-- A state holding only the protected version. -/
def taggedState : LandingState := ⟨[⟨taggedVersion, []⟩], none, none, none⟩

/-- Two versions sharing `createdAt = 100` with sequence numbers 1 and 2,
stored in that order. -/
def tieVersionOne : Version := ⟨1, "L1", "landing-one", "html", 1, "", none, 100, 0, none, none⟩

/-- The second tied version. -/
def tieVersionTwo : Version := ⟨2, "L1", "landing-one", "html", 2, "", none, 100, 0, none, none⟩

/-- A state holding the two tied versions in id order. -/
def tieState : LandingState := ⟨[⟨tieVersionOne, []⟩, ⟨tieVersionTwo, []⟩], none, none, none⟩

/-- An untouched version: no tag, no update timestamp. -/
def plainVersion : Version :=
  ⟨3, "L1", "landing-one", "html", 1, "v one", none, 100, 4, none, none⟩

/-- A state holding only the untouched version. -/
def plainState : LandingState := ⟨[⟨plainVersion, []⟩], none, none, none⟩

/-- A rollback target: version 5 archives `OLD` content. -/
def rollTarget : StoredVersion :=
  ⟨⟨5, "L1", "landing-one", "html", 1, "v1", none, 100, 3, none, none⟩, [("a", "OLD")]⟩

/-- A state whose live directory holds `NEW` content and whose store holds
the rollback target. -/
def rollState : LandingState := ⟨[rollTarget], some [("a", "NEW")], none, none⟩

/-- Eleven stored versions (ids 0–10), exceeding the legacy cap of ten. -/
def elevenVersions : List StoredVersion :=
  (List.range 11).map fun k =>
    ⟨⟨k, "L1", "landing-one", "html", k + 1, "", none, k, 0, none, none⟩, [("a", "x")]⟩

/-- A state holding eleven versions and a live directory. -/
def elevenState : LandingState := ⟨elevenVersions, some demoFiles, none, none⟩

/-! ## Store lemmas -/

/-- Writing a version directory whose id collides with no existing one
appends it. -/
theorem insertVersion_fresh (versions : List StoredVersion) (v : StoredVersion)
    (h : ∀ w ∈ versions, w.meta.id ≠ v.meta.id) :
    insertVersion versions v = versions ++ [v] := by
  have hn : versions.any (fun w => w.meta.id == v.meta.id) = false := by
    simp only [List.any_eq_false, beq_iff_eq]
    exact h
  simp [insertVersion, hn]

/-- Searching for an id that no stored version carries finds nothing. -/
theorem find?_id_fresh (versions : List StoredVersion) (n : Nat)
    (h : ∀ w ∈ versions, w.meta.id ≠ n) :
    versions.find? (fun w => w.meta.id == n) = none := by
  rw [List.find?_eq_none]
  intro w hw
  simp [h w hw]

/-- Characterization of a successful `createVersion` call: when the live
directory exists and the clock value is fresh, it returns the new metadata
record and appends the new version directory, touching nothing else. -/
theorem createVersion_eq (landing : Landing) (st : LandingState) (now : Nat)
    (description : String) (auditId : Option String) (files : List (String × String))
    (hlive : st.live = some files)
    (hfresh : ∀ w ∈ st.versions, w.meta.id ≠ now) :
    createVersion landing st now description auditId =
      (some (createdMetadata landing st now description auditId files),
       { st with versions :=
          st.versions ++ [⟨createdMetadata landing st now description auditId files, files⟩] }) := by
  have hins := insertVersion_fresh st.versions
    ⟨createdMetadata landing st now description auditId files, files⟩ hfresh
  simp [createVersion, hlive, cleanupOldVersions, createdMetadata] at hins ⊢
  exact hins

/-! ## Claim theorems -/

/-- C4: `createVersion` never deletes or mutates any existing version: for
every prior state of the store — including states holding more than ten
versions — a successful create appends the new version directory and leaves
every previously existing metadata record and archive blob in place,
unchanged (no cap-based cleanup: `cleanupOldVersions` is a no-op). -/
theorem createVersion_preserves_existing (landing : Landing) (st : LandingState)
    (now : Nat) (description : String) (auditId : Option String)
    (files : List (String × String))
    (hlive : st.live = some files)
    (hfresh : ∀ w ∈ st.versions, w.meta.id ≠ now) :
    ∃ m, (createVersion landing st now description auditId).1 = some m ∧
      (createVersion landing st now description auditId).2.versions =
        st.versions ++ [⟨m, files⟩] ∧
      ∀ w ∈ st.versions, w ∈ (createVersion landing st now description auditId).2.versions := by
  rw [createVersion_eq landing st now description auditId files hlive hfresh]
  refine ⟨createdMetadata landing st now description auditId files, rfl, rfl, ?_⟩
  intro w hw
  exact List.mem_append_left _ hw

/-- Witness for C4 at a store already holding eleven versions: the
hypotheses hold and the conclusion follows. -/
theorem createVersion_preserves_existing_witness :
    elevenState.live = some demoFiles ∧
    (∀ w ∈ elevenState.versions, w.meta.id ≠ 100) ∧
    (∃ m, (createVersion demoLanding elevenState 100 "d" none).1 = some m ∧
      (createVersion demoLanding elevenState 100 "d" none).2.versions =
        elevenState.versions ++ [⟨m, demoFiles⟩] ∧
      ∀ w ∈ elevenState.versions,
        w ∈ (createVersion demoLanding elevenState 100 "d" none).2.versions) :=
  ⟨rfl, by decide,
   createVersion_preserves_existing demoLanding elevenState 100 "d" none demoFiles rfl
     (by decide)⟩

/-- C10: every version returned by `createVersion` has `tag = null`, so a
fresh snapshot is never protected and an immediately following
`deleteVersion` on it does not raise the protection error. -/
theorem createVersion_tag_null (landing : Landing) (st : LandingState)
    (now : Nat) (description : String) (auditId : Option String)
    (files : List (String × String))
    (hlive : st.live = some files)
    (hfresh : ∀ w ∈ st.versions, w.meta.id ≠ now) :
    ∃ m, (createVersion landing st now description auditId).1 = some m ∧
      m.tag = none ∧
      ∃ st2, deleteVersion (createVersion landing st now description auditId).2 m.id =
        Except.ok (true, st2) := by
  rw [createVersion_eq landing st now description auditId files hlive hfresh]
  set m := createdMetadata landing st now description auditId files with hm
  refine ⟨m, rfl, rfl, ?_⟩
  have hfind : (st.versions ++ [(⟨m, files⟩ : StoredVersion)]).find?
      (fun w => w.meta.id == now) = some ⟨m, files⟩ := by
    rw [List.find?_append, find?_id_fresh st.versions now hfresh]
    simp [hm, createdMetadata]
  have htag : m.tag = none := rfl
  have hfind2 : (st.versions ++ [(⟨m, files⟩ : StoredVersion)]).find?
      (fun w => w.meta.id == m.id) = some ⟨m, files⟩ := hfind
  refine ⟨{ st with versions :=
    (st.versions ++ [(⟨m, files⟩ : StoredVersion)]).filter fun w => w.meta.id != m.id }, ?_⟩
  simp [deleteVersion, getVersion, hfind2, htag, tagTruthy]

/-- Witness for C10 at a concrete fresh state. -/
theorem createVersion_tag_null_witness :
    freshState.live = some demoFiles ∧
    (∀ w ∈ freshState.versions, w.meta.id ≠ 10) ∧
    (∃ m, (createVersion demoLanding freshState 10 "d" none).1 = some m ∧
      m.tag = none ∧
      ∃ st2, deleteVersion (createVersion demoLanding freshState 10 "d" none).2 m.id =
        Except.ok (true, st2)) :=
  ⟨rfl, by decide,
   createVersion_tag_null demoLanding freshState 10 "d" none demoFiles rfl (by decide)⟩

/-- C2: rolling back to a target version whose archive exists first snapshots
the pre-rollback live state as a new version described
`"Backup before rollback"`; afterwards the live directory holds exactly the
target version's archived content and the landing's current-version pointer
equals the target's id and sequence number. -/
theorem rollbackToVersion_spec (landing : Landing) (st : LandingState)
    (versionId now : Nat) (sv : StoredVersion) (files : List (String × String))
    (hlive : st.live = some files)
    (hfind : st.versions.find? (fun w => w.meta.id == versionId) = some sv)
    (hfresh : ∀ w ∈ st.versions, w.meta.id ≠ now) :
    ∃ st3, rollbackToVersion landing st versionId now = Except.ok (true, st3) ∧
      (∃ bk ∈ st3.versions, bk.meta.id = now ∧
        bk.meta.description = "Backup before rollback" ∧ bk.content = files) ∧
      st3.live = some sv.content ∧
      st3.currentVersionId = some versionId ∧
      st3.currentVersionNumber = some sv.meta.versionNumber := by
  have hid : sv.meta.id = versionId := by
    have := List.find?_some hfind
    simpa using this
  have hcreate := createVersion_eq landing st now "Backup before rollback" none files hlive hfresh
  set m := createdMetadata landing st now "Backup before rollback" none files with hm
  have hfind2 : (st.versions ++ [(⟨m, files⟩ : StoredVersion)]).find?
      (fun w => w.meta.id == versionId) = some sv := by
    rw [List.find?_append, hfind]
    rfl
  refine ⟨{ versions := st.versions ++ [(⟨m, files⟩ : StoredVersion)],
            live := some sv.content,
            currentVersionId := some sv.meta.id,
            currentVersionNumber := some sv.meta.versionNumber }, ?_, ?_, rfl, ?_, rfl⟩
  · simp only [rollbackToVersion, hfind, hcreate, getVersion, hfind2, Option.map_some']
  · refine ⟨⟨m, files⟩, ?_, rfl, rfl, rfl⟩
    exact List.mem_append_right _ (List.mem_singleton_self _)
  · rw [hid]

/-- Witness for C2 at a concrete state: live `NEW` content, one stored
version archiving `OLD` content. -/
theorem rollbackToVersion_spec_witness :
    rollState.live = some [("a", "NEW")] ∧
    rollState.versions.find? (fun w => w.meta.id == 5) = some rollTarget ∧
    (∀ w ∈ rollState.versions, w.meta.id ≠ 9) ∧
    (∃ st3, rollbackToVersion demoLanding rollState 5 9 = Except.ok (true, st3) ∧
      (∃ bk ∈ st3.versions, bk.meta.id = 9 ∧
        bk.meta.description = "Backup before rollback" ∧ bk.content = [("a", "NEW")]) ∧
      st3.live = some rollTarget.content ∧
      st3.currentVersionId = some 5 ∧
      st3.currentVersionNumber = some rollTarget.meta.versionNumber) :=
  ⟨rfl, rfl, by decide,
   rollbackToVersion_spec demoLanding rollState 5 9 rollTarget [("a", "NEW")] rfl rfl (by decide)⟩

/-- C3 counterexample: the claim says every version with a non-null tag is
protected, but the code tests JS truthiness, and the empty string is falsy.
A version whose tag is `""` (non-null) is deleted without any error. -/
theorem deleteVersion_empty_tag_counterexample :
    (getVersion emptyTagState 7).map Version.tag = some (some "") ∧
    deleteVersion emptyTagState 7 =
      Except.ok (true, { emptyTagState with versions := [] }) := by
  exact ⟨rfl, rfl⟩

/-- Two predicates agreeing on every element of a list find the same
element. -/
theorem find?_pred_congr {α : Type} (p q : α → Bool) (l : List α)
    (h : ∀ x ∈ l, p x = q x) : l.find? p = l.find? q := by
  induction l with
  | nil => rfl
  | cons a t ih =>
    rw [List.find?_cons, List.find?_cons, h a (by simp)]
    cases hqa : q a
    · exact ih fun x hx => h x (by simp [hx])
    · rfl

/-- Replacing the metadata of the version a `find?` by id locates, with an
update that keeps the id, leaves it the version that same `find?` locates. -/
theorem find?_map_replace (l : List StoredVersion) (versionId : Nat)
    (m3 : Version) (sv : StoredVersion)
    (hm3 : m3.id = sv.meta.id)
    (hfind : l.find? (fun w => w.meta.id == versionId) = some sv) :
    (l.map fun w => if w.meta.id == versionId then { w with meta := m3 } else w).find?
      (fun w => w.meta.id == versionId) = some { sv with meta := m3 } := by
  have hsv : sv.meta.id = versionId := by simpa using List.find?_some hfind
  rw [List.find?_map]
  have hcomp : l.find? ((fun w => w.meta.id == versionId) ∘
      fun w => if w.meta.id == versionId then { w with meta := m3 } else w) =
      l.find? (fun w => w.meta.id == versionId) := by
    apply find?_pred_congr
    intro w _
    by_cases hw : w.meta.id = versionId
    · simp [Function.comp, hw, hm3, hsv]
    · simp [Function.comp, hw]
  rw [hcomp, hfind]
  simp [hsv]

/-- C3, amended: a version is protected exactly when its tag is truthy (a
non-empty string): deleting it then fails, and after the tag is cleared via
a metadata update, `deleteVersion` succeeds and removes the version entry —
metadata record and archive blob — from the store. -/
theorem deleteVersion_protection (st : LandingState) (versionId now : Nat) (v : Version)
    (hget : getVersion st versionId = some v)
    (htag : tagTruthy v.tag = true) :
    deleteVersion st versionId =
      Except.error "Cannot delete version - tagged versions are protected from deletion" ∧
    ∀ m2 st2, updateVersionMetadata st versionId none (some none) now = Except.ok (m2, st2) →
      m2.tag = none ∧
      deleteVersion st2 versionId =
        Except.ok (true, { st2 with versions := st2.versions.filter fun w => w.meta.id != versionId }) ∧
      ∀ w ∈ st2.versions.filter (fun w => w.meta.id != versionId), w.meta.id ≠ versionId := by
  obtain ⟨sv, hfind, hmeta⟩ : ∃ sv, st.versions.find? (fun w => w.meta.id == versionId) = some sv ∧
      sv.meta = v := by
    unfold getVersion at hget
    rcases hfs : st.versions.find? (fun w => w.meta.id == versionId) with _ | sv
    · rw [hfs] at hget; simp at hget
    · rw [hfs] at hget; exact ⟨sv, hfs, by simpa using hget⟩
  constructor
  · simp [deleteVersion, hget, htag]
  · intro m2 st2 hupd
    simp only [updateVersionMetadata, hfind, Except.ok.injEq, Prod.mk.injEq] at hupd
    obtain ⟨hm2, hst2⟩ := hupd
    subst hm2
    subst hst2
    have hfind3 := find?_map_replace st.versions versionId
      { sv.meta with tag := none, updatedAt := some now } sv rfl hfind
    dsimp only at hfind3
    refine ⟨rfl, ?_, ?_⟩
    · simp only [deleteVersion, getVersion]
      rw [hfind3]
      simp [tagTruthy]
    · intro w hw
      rw [List.mem_filter] at hw
      simpa using hw.2

/-- Witness for C3 at a version tagged `"release-1.0"`. -/
theorem deleteVersion_protection_witness :
    getVersion taggedState 7 = some taggedVersion ∧
    tagTruthy taggedVersion.tag = true ∧
    (deleteVersion taggedState 7 =
      Except.error "Cannot delete version - tagged versions are protected from deletion" ∧
    ∀ m2 st2, updateVersionMetadata taggedState 7 none (some none) 9 = Except.ok (m2, st2) →
      m2.tag = none ∧
      deleteVersion st2 7 =
        Except.ok (true, { st2 with versions := st2.versions.filter fun w => w.meta.id != 7 }) ∧
      ∀ w ∈ st2.versions.filter (fun w => w.meta.id != 7), w.meta.id ≠ 7) :=
  ⟨rfl, rfl, deleteVersion_protection taggedState 7 9 taggedVersion rfl rfl⟩

/-- C9 counterexample: the claim says `updatedAt` is set only when
`description` or `tag` is mutated, but the code stamps it unconditionally:
an update providing neither field still sets `updatedAt`. -/
theorem updateVersionMetadata_stamp_counterexample :
    plainVersion.updatedAt = none ∧
    updateVersionMetadata plainState 3 none none 50 =
      Except.ok ({ plainVersion with updatedAt := some 50 },
        { plainState with versions := [⟨{ plainVersion with updatedAt := some 50 }, []⟩] }) := by
  exact ⟨rfl, rfl⟩

/-- C9, amended: `updateVersionMetadata` applies exactly the provided fields
(`description` and/or `tag`) and leaves every other metadata field
unchanged, but sets `updatedAt` on every successful call — even one that
provides no field; it fails with `'Version not found'` when the version
does not exist. -/
theorem updateVersionMetadata_partial_update :
    (∀ (st : LandingState) (versionId now : Nat) (du : Option String)
       (tu : Option (Option String)) (sv : StoredVersion),
      st.versions.find? (fun w => w.meta.id == versionId) = some sv →
      updateVersionMetadata st versionId du tu now =
        Except.ok ({ sv.meta with
            description := du.getD sv.meta.description,
            tag := tu.getD sv.meta.tag,
            updatedAt := some now },
          { st with versions := st.versions.map fun w =>
              if w.meta.id == versionId then
                { w with meta := { sv.meta with
                    description := du.getD sv.meta.description,
                    tag := tu.getD sv.meta.tag,
                    updatedAt := some now } }
              else w })) ∧
    (∀ (st : LandingState) (versionId now : Nat) (du : Option String)
       (tu : Option (Option String)),
      st.versions.find? (fun w => w.meta.id == versionId) = none →
      updateVersionMetadata st versionId du tu now = Except.error "Version not found") := by
  constructor
  · intro st versionId now du tu sv hfind
    cases du <;> cases tu <;> simp [updateVersionMetadata, hfind]
  · intro st versionId now du tu hfind
    simp [updateVersionMetadata, hfind]

/-- Witness for C9: updating only the description of a stored version. -/
theorem updateVersionMetadata_partial_update_witness :
    plainState.versions.find? (fun w => w.meta.id == 3) = some ⟨plainVersion, []⟩ ∧
    updateVersionMetadata plainState 3 (some "nd") none 9 =
      Except.ok ({ plainVersion with
          description := (some "nd").getD plainVersion.description,
          tag := (none : Option (Option String)).getD plainVersion.tag,
          updatedAt := some 9 },
        { plainState with versions := plainState.versions.map fun w =>
            if w.meta.id == 3 then
              { w with meta := { plainVersion with
                  description := (some "nd").getD plainVersion.description,
                  tag := (none : Option (Option String)).getD plainVersion.tag,
                  updatedAt := some 9 } }
            else w }) ∧
    freshState.versions.find? (fun w => w.meta.id == 3) = none ∧
    updateVersionMetadata freshState 3 none none 9 = Except.error "Version not found" :=
  ⟨rfl,
   updateVersionMetadata_partial_update.1 plainState 3 9 (some "nd") none ⟨plainVersion, []⟩ rfl,
   rfl,
   updateVersionMetadata_partial_update.2 freshState 3 9 none none rfl⟩

/-- C8 counterexample: the sort comparator uses only `createdAt`, so two
versions sharing a `createdAt` keep their enumeration order; the claimed
sequence-number-descending tie-break does not hold: the output lists the
tied versions as numbers 1 then 2, not 2 then 1. -/
theorem getVersions_tie_counterexample :
    getVersions tieState = [tieVersionOne, tieVersionTwo] ∧
    ¬ List.Pairwise newestFirstSpec (getVersions tieState) := by
  have heq : getVersions tieState = [tieVersionOne, tieVersionTwo] := rfl
  refine ⟨heq, ?_⟩
  intro h
  rw [heq] at h
  exact absurd (List.rel_of_pairwise_cons h (List.mem_singleton_self tieVersionTwo))
    (by decide)

/-- C8, amended: `getVersions` returns all of the unit's versions ordered
newest-first by `createdAt` — versions with equal `createdAt` stay in store
enumeration order (stable sort), with no sequence-number tie-break — and
returns an empty sequence, never an error, when the unit has none. -/
theorem getVersions_ordering (st : LandingState) :
    List.Sorted createdDesc (getVersions st) ∧
    (getVersions st).Perm (st.versions.map StoredVersion.meta) ∧
    (st.versions = [] → getVersions st = []) := by
  refine ⟨List.sorted_insertionSort createdDesc _, List.perm_insertionSort createdDesc _, ?_⟩
  intro h
  simp [getVersions, h]

/-- Witness for C8 at the empty store and at the two-version store. -/
theorem getVersions_ordering_witness :
    (List.Sorted createdDesc (getVersions tieState) ∧
      (getVersions tieState).Perm (tieState.versions.map StoredVersion.meta)) ∧
    (freshState.versions = [] ∧ getVersions freshState = []) :=
  ⟨⟨(getVersions_ordering tieState).1, (getVersions_ordering tieState).2.1⟩,
   rfl, (getVersions_ordering freshState).2.2 rfl⟩

/-- C1 counterexample: `getNextVersionNumber` is one more than the highest
number currently stored, so deleting the highest-numbered version lets its
number be reused.  Three creates with a delete of the second version in
between assign numbers 1, 2, 2 — a repeat, not `1..3`. -/
theorem sequence_number_reuse_counterexample :
    seqStepA.1.map Version.versionNumber = some 1 ∧
    seqStepB.1.map Version.versionNumber = some 2 ∧
    seqDelete = Except.ok (true, seqStateAfterDelete) ∧
    seqStepC.1.map Version.versionNumber = some 2 ∧
    seqStepC.1.map Version.versionNumber ≠ some 3 :=
  ⟨rfl, rfl, rfl, rfl, by decide⟩

/-- The fold of `getNextVersionNumber` is a plain maximum fold. -/
theorem foldl_max_version_step (l : List Version) (init : Nat) :
    l.foldl (fun maxNumber v =>
      if v.versionNumber ≠ 0 ∧ v.versionNumber > maxNumber then v.versionNumber
      else maxNumber) init =
    l.foldl (fun mx v => max mx v.versionNumber) init := by
  apply List.foldl_ext
  intro mx v _
  by_cases h : v.versionNumber ≠ 0 ∧ v.versionNumber > mx
  · rw [if_pos h]
    omega
  · rw [if_neg h]
    omega

/-- Folding `max` over `1, …, n` from 0 gives `n`. -/
theorem foldl_max_range_one (n : Nat) : (List.range' 1 n).foldl max 0 = n := by
  induction n with
  | zero => rfl
  | succ k ih =>
    rw [List.range'_concat, List.foldl_append, ih]
    simp
    omega

/-- `getNextVersionNumber` in closed form: one more than the largest stored
sequence number (1 on an empty store); the sort applied by `getVersions`
cannot change the maximum. -/
theorem getNextVersionNumber_formula (st : LandingState) :
    getNextVersionNumber st =
      if st.versions = [] then 1
      else (st.versions.map fun w => w.meta.versionNumber).foldl max 0 + 1 := by
  unfold getNextVersionNumber getVersions
  have hlen : (List.insertionSort createdDesc (st.versions.map StoredVersion.meta)).length
      = st.versions.length := by
    rw [(List.perm_insertionSort createdDesc _).length_eq, List.length_map]
  by_cases h : st.versions = []
  · simp [h]
  · rw [if_neg (by rw [hlen]; simp [List.length_eq_zero, h]), if_neg h]
    congr 1
    rw [foldl_max_version_step]
    rw [← List.foldl_map (fun v : Version => v.versionNumber) max]
    have hperm : ((List.insertionSort createdDesc (st.versions.map StoredVersion.meta)).map
        (fun v : Version => v.versionNumber)).Perm
        (st.versions.map fun w => w.meta.versionNumber) := by
      have := (List.perm_insertionSort createdDesc (st.versions.map StoredVersion.meta)).map
        (fun v : Version => v.versionNumber)
      rwa [List.map_map] at this
    exact hperm.foldl_eq 0

/-- State invariant of `createMany` from an empty store: ids are
`base, …, base + n - 1`, sequence numbers are `1, …, n` in creation order,
and the live directory is untouched. -/
theorem createMany_state (landing : Landing) (files : List (String × String)) (base : Nat) :
    ∀ n : Nat,
      ((createMany landing ⟨[], some files, none, none⟩ base n).versions.map
          fun w => w.meta.id) = List.range' base n ∧
      ((createMany landing ⟨[], some files, none, none⟩ base n).versions.map
          fun w => w.meta.versionNumber) = List.range' 1 n ∧
      (createMany landing ⟨[], some files, none, none⟩ base n).live = some files := by
  intro n
  induction n with
  | zero => exact ⟨rfl, rfl, rfl⟩
  | succ k ih =>
    obtain ⟨hid, hnum, hlive⟩ := ih
    set stk := createMany landing ⟨[], some files, none, none⟩ base k with hstk
    have hfresh : ∀ w ∈ stk.versions, w.meta.id ≠ base + k := by
      intro w hw
      have hmem : w.meta.id ∈ List.range' base k := by
        rw [← hid]
        exact List.mem_map_of_mem _ hw
      rw [List.mem_range'_1] at hmem
      omega
    have hcreate := createVersion_eq landing stk (base + k) "" none files hlive hfresh
    have hnext : getNextVersionNumber stk = k + 1 := by
      rw [getNextVersionNumber_formula]
      by_cases hk : stk.versions = []
      · have hr : List.range' 1 k = [] := by
          rw [← hnum, hk]
          rfl
        have hk0 : k = 0 := by
          by_contra hne
          rcases Nat.exists_eq_succ_of_ne_zero hne with ⟨j, rfl⟩
          rw [List.range'_concat] at hr
          exact absurd hr (by simp)
        rw [if_pos hk]
        omega
      · rw [if_neg hk, hnum, foldl_max_range_one]
    rw [show createMany landing ⟨[], some files, none, none⟩ base (k + 1) =
        (createVersion landing stk (base + k) "" none).2 from rfl, hcreate]
    dsimp only
    refine ⟨?_, ?_, hlive⟩
    · simp only [List.map_append, hid]
      rw [List.range'_concat]
      simp [createdMetadata]
    · simp only [List.map_append, hnum]
      rw [List.range'_concat]
      simp [createdMetadata, hnext]
      omega

/-- C1, amended: with no interleaved deletions, `n` consecutive creates on
a fresh content unit assign sequence numbers exactly `1..n` with no gaps or
repeats; the original claim fails once deletes intervene, because the next
number is recomputed as one more than the highest number still stored. -/
theorem createMany_sequence_numbers (landing : Landing) (files : List (String × String))
    (base n : Nat) :
    ((createMany landing ⟨[], some files, none, none⟩ base n).versions.map
        fun w => w.meta.versionNumber) = List.range' 1 n :=
  (createMany_state landing files base n).2.1

/-! ## LCS lemmas -/

/-- Every pair the backtrack emits lies strictly below the indices it was
called with, matches equal lines, and carries the old line as its `line`
field. -/
theorem backtrackLCS_mem (a b : List String) (i j : Nat) :
    ∀ e ∈ backtrackLCS a b i j,
      e.oldIdx < i ∧ e.newIdx < j ∧ a.getD e.oldIdx "" = b.getD e.newIdx "" ∧
      e.line = a.getD e.oldIdx "" := by
  induction i, j using backtrackLCS.induct a b with
  | case1 i j heq ih =>
    intro e he
    simp only [backtrackLCS, if_pos heq, List.mem_append, List.mem_singleton] at he
    rcases he with he | he
    · obtain ⟨h1, h2, h3, h4⟩ := ih e he
      exact ⟨Nat.lt_succ_of_lt h1, Nat.lt_succ_of_lt h2, h3, h4⟩
    · subst he
      exact ⟨Nat.lt_succ_self i, Nat.lt_succ_self j, heq, rfl⟩
  | case2 i j hne hgt ih =>
    intro e he
    simp only [backtrackLCS, if_neg hne, if_pos hgt] at he
    obtain ⟨h1, h2, h3, h4⟩ := ih e he
    exact ⟨Nat.lt_succ_of_lt h1, h2, h3, h4⟩
  | case3 i j hne hle ih =>
    intro e he
    simp only [backtrackLCS, if_neg hne, if_neg hle] at he
    obtain ⟨h1, h2, h3, h4⟩ := ih e he
    exact ⟨h1, Nat.lt_succ_of_lt h2, h3, h4⟩
  | case4 i j hnotsucc =>
    intro e he
    rcases i with _ | i
    · simp [backtrackLCS] at he
    · rcases j with _ | j
      · simp [backtrackLCS] at he
      · exact (hnotsucc i j rfl rfl).elim

/-- The backtrack output is strictly increasing in both index components. -/
theorem backtrackLCS_pairwise (a b : List String) (i j : Nat) :
    (backtrackLCS a b i j).Pairwise fun p q => p.oldIdx < q.oldIdx ∧ p.newIdx < q.newIdx := by
  induction i, j using backtrackLCS.induct a b with
  | case1 i j heq ih =>
    simp only [backtrackLCS, if_pos heq]
    rw [List.pairwise_append]
    refine ⟨ih, List.pairwise_singleton _ _, ?_⟩
    intro p hp q hq
    rw [List.mem_singleton] at hq
    subst hq
    obtain ⟨h1, h2, _, _⟩ := backtrackLCS_mem a b i j p hp
    exact ⟨h1, h2⟩
  | case2 i j hne hgt ih =>
    simpa only [backtrackLCS, if_neg hne, if_pos hgt] using ih
  | case3 i j hne hle ih =>
    simpa only [backtrackLCS, if_neg hne, if_neg hle] using ih
  | case4 i j hnotsucc =>
    rcases i with _ | i
    · simp [backtrackLCS]
    · rcases j with _ | j
      · simp [backtrackLCS]
      · exact (hnotsucc i j rfl rfl).elim

/-- The backtrack recovers exactly `dp i j` matched pairs. -/
theorem backtrackLCS_length (a b : List String) (i j : Nat) :
    (backtrackLCS a b i j).length = dp a b i j := by
  induction i, j using backtrackLCS.induct a b with
  | case1 i j heq ih =>
    simp only [backtrackLCS, if_pos heq, List.length_append, List.length_singleton, ih]
    simp only [dp, if_pos heq]
  | case2 i j hne hgt ih =>
    simp only [backtrackLCS, if_neg hne, if_pos hgt, ih]
    simp only [dp, if_neg hne]
    omega
  | case3 i j hne hle ih =>
    simp only [backtrackLCS, if_neg hne, if_neg hle, ih]
    simp only [dp, if_neg hne]
    omega
  | case4 i j hnotsucc =>
    rcases i with _ | i
    · simp [backtrackLCS, dp]
    · rcases j with _ | j
      · simp [backtrackLCS, dp]
      · exact (hnotsucc i j rfl rfl).elim

/-- C5: `computeLCS` returns an alignment that is strictly increasing in
both index components, pairs only equal lines (each pair is in range and
the old line equals the new line), and whose length is `dp[m][n]`, the LCS
length defined by the classical dynamic-programming recurrence. -/
theorem computeLCS_correct (a b : List String) :
    (computeLCS a b).Pairwise (fun p q => p.oldIdx < q.oldIdx ∧ p.newIdx < q.newIdx) ∧
    (∀ e ∈ computeLCS a b, e.oldIdx < a.length ∧ e.newIdx < b.length ∧
      a.getD e.oldIdx "" = b.getD e.newIdx "") ∧
    (computeLCS a b).length = dp a b a.length b.length := by
  refine ⟨backtrackLCS_pairwise a b a.length b.length, ?_,
    backtrackLCS_length a b a.length b.length⟩
  intro e he
  obtain ⟨h1, h2, h3, _⟩ := backtrackLCS_mem a b a.length b.length e he
  exact ⟨h1, h2, h3⟩

/-! ## Hunk-walk lemmas -/

/-- A remove run has one entry per skipped old line. -/
theorem removeRun_length (a : List String) (start stop : Nat) :
    (removeRun a start stop).length = stop - start := by
  simp [removeRun]

/-- An add run has one entry per skipped new line. -/
theorem addRun_length (b : List String) (start stop : Nat) :
    (addRun b start stop).length = stop - start := by
  simp [addRun]

/-- A strictly increasing matched-pair list whose entries all lie at or
beyond `(oi, nj)` is monotone for the lockstep walk. -/
theorem incrFrom_of_pairwise (l : List LcsEntry) :
    ∀ oi nj : Nat,
      l.Pairwise (fun p q => p.oldIdx < q.oldIdx ∧ p.newIdx < q.newIdx) →
      (∀ e ∈ l, oi ≤ e.oldIdx ∧ nj ≤ e.newIdx) →
      IncrFrom oi nj l := by
  induction l with
  | nil => intro oi nj _ _; trivial
  | cons e rest ih =>
    intro oi nj hpw hbd
    rw [List.pairwise_cons] at hpw
    obtain ⟨h1, h2⟩ := hbd e (by simp)
    refine ⟨h1, h2, ih (e.oldIdx + 1) (e.newIdx + 1) hpw.2 ?_⟩
    intro p hp
    obtain ⟨hp1, hp2⟩ := hpw.1 p hp
    omega

/-- One lockstep iteration from a closed state with a pending gap: the gap
becomes one hunk closed by a context entry, and the walk resumes just past
the match. -/
theorem stepMatch_gap (a b : List String) (e : LcsEntry) (oi nj : Nat) (hs : List Hunk)
    (h1 : oi ≤ e.oldIdx) (h2 : nj ≤ e.newIdx)
    (hgap : oi < e.oldIdx ∨ nj < e.newIdx) :
    stepMatch a b e ⟨oi, nj, none, hs⟩ =
      ⟨e.oldIdx + 1, e.newIdx + 1, none,
        hs ++ [{
          oldStart := oi + 1,
          newStart := nj + 1,
          changes := removeRun a oi e.oldIdx ++ addRun b nj e.newIdx ++
            [{ type := ChangeType.context, line := a.getD e.oldIdx "",
               lineNumber := e.oldIdx + 1 }] }]⟩ := by
  have hpos : 0 < (removeRun a oi e.oldIdx ++ addRun b nj e.newIdx).length := by
    rw [List.length_append, removeRun_length, addRun_length]
    omega
  simp only [stepMatch, if_pos hgap, Option.getD_none]
  rw [Nat.max_eq_right h1, Nat.max_eq_right h2]
  simp only [List.nil_append]
  rw [if_pos hpos]

/-- One lockstep iteration from a closed state with no pending gap: nothing
is emitted and the walk advances past the match. -/
theorem stepMatch_nogap (a b : List String) (e : LcsEntry) (oi nj : Nat) (hs : List Hunk)
    (hgap : ¬ (oi < e.oldIdx ∨ nj < e.newIdx)) :
    stepMatch a b e ⟨oi, nj, none, hs⟩ = ⟨oi + 1, nj + 1, none, hs⟩ := by
  simp only [stepMatch, if_neg hgap]

/-- The whole `computeHunks` walk, started from a closed state, appends
exactly the hunks of the spec-side lockstep description. -/
theorem walk_spec (a b : List String) :
    ∀ (l : List LcsEntry) (oi nj : Nat) (hs : List Hunk), IncrFrom oi nj l →
      finishWalk a b (l.foldl (fun st m => stepMatch a b m st) ⟨oi, nj, none, hs⟩) =
        hs ++ hunksSpec a b l oi nj := by
  intro l
  induction l with
  | nil =>
    intro oi nj hs _
    simp only [List.foldl_nil, finishWalk, hunksSpec]
    by_cases h : oi < a.length ∨ nj < b.length
    · have hpos : 0 < (removeRun a oi a.length ++ addRun b nj b.length).length := by
        rw [List.length_append, removeRun_length, addRun_length]
        omega
      rw [if_pos h, if_pos h]
      simp only [Option.getD_none, List.nil_append]
      rw [if_pos hpos]
    · rw [if_neg h, if_neg h, List.append_nil]
  | cons e rest ih =>
    intro oi nj hs hincr
    obtain ⟨h1, h2, h3⟩ := hincr
    rw [List.foldl_cons]
    by_cases hgap : oi < e.oldIdx ∨ nj < e.newIdx
    · rw [stepMatch_gap a b e oi nj hs h1 h2 hgap, ih (e.oldIdx + 1) (e.newIdx + 1) _ h3]
      simp only [hunksSpec, if_pos hgap]
      rw [List.append_assoc]
      rfl
    · rw [stepMatch_nogap a b e oi nj hs hgap, ih (oi + 1) (nj + 1) _ ?hi]
      case hi =>
        have ho : oi = e.oldIdx := by omega
        have hn : nj = e.newIdx := by omega
        rw [ho, hn]
        exact h3
      simp only [hunksSpec, if_neg hgap]
      have ho : oi = e.oldIdx := by omega
      have hn : nj = e.newIdx := by omega
      rw [ho, hn]

/-- C6: `computeHunks` splits both texts into lines and walks them in
lockstep with the matched-pair list exactly as the spec describes: each run
of unmatched old lines becomes consecutive `remove` entries and each run of
unmatched new lines consecutive `add` entries of a hunk whose `oldStart` and
`newStart` are the 1-based positions where the run began; each matched line
closing a change run becomes that hunk's single trailing `context` entry; a
trailing hunk absorbs the unmatched lines after the last match. -/
theorem computeHunks_matches_spec (oldContent newContent : String) :
    computeHunks oldContent newContent =
      hunksSpec (oldContent.splitOn "\n") (newContent.splitOn "\n")
        (computeLCS (oldContent.splitOn "\n") (newContent.splitOn "\n")) 0 0 := by
  have hincr : IncrFrom 0 0
      (computeLCS (oldContent.splitOn "\n") (newContent.splitOn "\n")) := by
    apply incrFrom_of_pairwise
    · exact backtrackLCS_pairwise _ _ _ _
    · intro e _
      omega
  have h := walk_spec (oldContent.splitOn "\n") (newContent.splitOn "\n")
    (computeLCS (oldContent.splitOn "\n") (newContent.splitOn "\n")) 0 0 [] hincr
  simpa [computeHunks] using h

/-! ## File-diff lemmas -/

/-- Membership in the key-set union is membership in the concatenated key
lists. -/
theorem setUnion_mem (keys : List String) (f : String) :
    f ∈ setUnion keys ↔ f ∈ keys := by
  have general : ∀ (ks : List String) (acc : List String),
      (f ∈ ks.foldl (fun acc k => if k ∈ acc then acc else acc ++ [k]) acc ↔
        f ∈ acc ∨ f ∈ ks) := by
    intro ks
    induction ks with
    | nil => intro acc; simp
    | cons k t ih =>
      intro acc
      rw [List.foldl_cons]
      by_cases hk : k ∈ acc
      · rw [if_pos hk, ih acc]
        constructor
        · rintro (h | h)
          · exact Or.inl h
          · exact Or.inr (List.mem_cons_of_mem k h)
        · rintro (h | h)
          · exact Or.inl h
          · rcases List.mem_cons.mp h with rfl | h
            · exact Or.inl hk
            · exact Or.inr h
      · rw [if_neg hk, ih (acc ++ [k])]
        rw [List.mem_append, List.mem_singleton, List.mem_cons]
        tauto
  rw [setUnion, general keys []]
  simp

/-- A key occurring in an association list's key projection has a value. -/
theorem lookup_of_mem_keys (l : List (String × String)) (f : String)
    (h : f ∈ l.map Prod.fst) : ∃ c, List.lookup f l = some c := by
  induction l with
  | nil => simp at h
  | cons kv t ih =>
    rw [List.map_cons, List.mem_cons] at h
    by_cases hk : f = kv.1
    · refine ⟨kv.2, ?_⟩
      rw [show (kv : String × String) = (kv.1, kv.2) from rfl, List.lookup_cons]
      simp [hk]
    · obtain ⟨c, hc⟩ := ih (h.resolve_left hk)
      refine ⟨c, ?_⟩
      rw [show (kv : String × String) = (kv.1, kv.2) from rfl, List.lookup_cons]
      have hb : (f == kv.1) = false := by simp [hk]
      rw [hb, hc]

/-- Whatever diff `classifyFile` emits for a path carries that path as its
filename. -/
theorem classifyFile_filename (newFiles oldFiles : List (String × String))
    (f : String) (d : FileDiff) (h : classifyFile newFiles oldFiles f = some d) :
    d.filename = f := by
  unfold classifyFile at h
  rcases hn : List.lookup f newFiles with _ | nc <;>
    rcases ho : List.lookup f oldFiles with _ | oc <;>
      rw [hn, ho] at h
  · exact absurd h (by simp)
  · simp only [Option.some.injEq] at h
    rw [← h]
    rfl
  · simp only [Option.some.injEq] at h
    rw [← h]
    rfl
  · dsimp only at h
    by_cases hne : nc ≠ oc
    · rw [if_pos hne] at h
      by_cases hl : (computeHunks oc nc).length > 0
      · rw [if_pos hl] at h
        simp only [Option.some.injEq] at h
        rw [← h]
        rfl
      · rw [if_neg hl] at h
        exact absurd h (by simp)
    · rw [if_neg hne] at h
      exact absurd h (by simp)

/-- A path present in both maps with identical text produces no diff. -/
theorem classifyFile_same (newFiles oldFiles : List (String × String))
    (f : String) (c : String)
    (hn : List.lookup f newFiles = some c) (ho : List.lookup f oldFiles = some c) :
    classifyFile newFiles oldFiles f = none := by
  unfold classifyFile
  rw [hn, ho]
  simp

/-- C7: `computeFileDiffs(X, X)` is empty for every file map `X`, and in
general a path present in both inputs with identical text is omitted from
the result entirely. -/
theorem computeFileDiffs_identical :
    (∀ X : List (String × String), computeFileDiffs X X = []) ∧
    (∀ (newFiles oldFiles : List (String × String)) (p c : String),
      List.lookup p newFiles = some c → List.lookup p oldFiles = some c →
      ∀ d ∈ computeFileDiffs newFiles oldFiles, d.filename ≠ p) := by
  constructor
  · intro X
    unfold computeFileDiffs
    rw [List.filterMap_eq_nil_iff]
    intro f hf
    rw [setUnion_mem, List.mem_append] at hf
    have hf2 : f ∈ X.map Prod.fst := by tauto
    obtain ⟨c, hc⟩ := lookup_of_mem_keys X f hf2
    exact classifyFile_same X X f c hc hc
  · intro newFiles oldFiles p c hn ho d hd
    unfold computeFileDiffs at hd
    rw [List.mem_filterMap] at hd
    obtain ⟨f, _, hf⟩ := hd
    intro hdp
    have hfp : f = p := by
      rw [← classifyFile_filename newFiles oldFiles f d hf, hdp]
    rw [hfp, classifyFile_same newFiles oldFiles p c hn ho] at hf
    exact absurd hf (by simp)

/-- Witness for C7: a concrete identical map, and a concrete pair sharing an
identical file `a` while differing on `b`. -/
theorem computeFileDiffs_identical_witness :
    computeFileDiffs [("a", "x"), ("b", "y")] [("a", "x"), ("b", "y")] = [] ∧
    (List.lookup "a" [("a", "x"), ("b", "y")] = some "x" ∧
     List.lookup "a" [("a", "x"), ("b", "z")] = some "x" ∧
     ∀ d ∈ computeFileDiffs [("a", "x"), ("b", "y")] [("a", "x"), ("b", "z")],
       d.filename ≠ "a") :=
  ⟨computeFileDiffs_identical.1 [("a", "x"), ("b", "y")],
   rfl, rfl,
   computeFileDiffs_identical.2 [("a", "x"), ("b", "y")] [("a", "x"), ("b", "z")]
     "a" "x" rfl rfl⟩

/-! ## The dp table measures a longest common subsequence

The C5 claim reads the spec's recurrence as the definition of LCS length;
the theorems below additionally tie `dp` to the literal notion: the lines
`computeLCS` matches form a common subsequence of both line lists, and no
common subsequence is longer. -/

/-- A sublist of `l ++ [x]` avoids the final element or ends with it. -/
theorem sublist_concat_decomp {α : Type} (s l : List α) (x : α)
    (h : s.Sublist (l ++ [x])) :
    s.Sublist l ∨ ∃ t, s = t ++ [x] ∧ t.Sublist l := by
  rw [List.sublist_append_iff] at h
  obtain ⟨l₁, l₂, rfl, h₁, h₂⟩ := h
  rcases List.sublist_singleton.mp h₂ with rfl | rfl
  · exact Or.inl (by simpa using h₁)
  · exact Or.inr ⟨l₁, rfl, h₁⟩

/-- A sublist of a one-longer prefix is a sublist of the shorter prefix or
ends with the newly exposed line. -/
theorem sublist_take_succ_decomp (a : List String) (i : Nat) (s : List String)
    (h : s.Sublist (a.take (i + 1))) :
    s.Sublist (a.take i) ∨
      ∃ t, s = t ++ [a.getD i ""] ∧ t.Sublist (a.take i) := by
  by_cases hi : i < a.length
  · rw [List.take_succ] at h
    have hx : a[i]?.toList = [a.getD i ""] := by
      rw [List.getElem?_eq_getElem hi, List.getD_eq_getElem a "" hi]
      rfl
    rw [hx] at h
    exact sublist_concat_decomp s (a.take i) (a.getD i "") h
  · left
    rw [List.take_of_length_le (by omega)]
    rw [List.take_of_length_le (by omega)] at h
    exact h

/-- Optimality: no common subsequence of the `i`- and `j`-prefixes is longer
than `dp i j`. -/
theorem dp_optimal (a b : List String) :
    ∀ (n i j : Nat), i + j ≤ n → ∀ s : List String,
      s.Sublist (a.take i) → s.Sublist (b.take j) → s.length ≤ dp a b i j := by
  intro n
  induction n with
  | zero =>
    intro i j hij s hsa hsb
    have hi : i = 0 := by omega
    subst hi
    rw [List.take_zero, List.sublist_nil] at hsa
    subst hsa
    simp
  | succ n ih =>
    intro i j hij s hsa hsb
    match i, j with
    | 0, j =>
      rw [List.take_zero, List.sublist_nil] at hsa
      subst hsa
      simp
    | i+1, 0 =>
      rw [List.take_zero, List.sublist_nil] at hsb
      subst hsb
      simp
    | i+1, j+1 =>
      by_cases heq : a.getD i "" = b.getD j ""
      · have hdp : dp a b (i+1) (j+1) = dp a b i j + 1 := by
          simp only [dp, if_pos heq]
        rw [hdp]
        rcases sublist_take_succ_decomp b j s hsb with hB | ⟨s2, hseq2, hs2⟩
        · rcases sublist_take_succ_decomp a i s hsa with hA | ⟨s1, hseq1, hs1⟩
          · have := ih i j (by omega) s hA hB
            omega
          · have hs1b : s1.Sublist (b.take j) :=
              ((List.sublist_append_left s1 [a.getD i ""]).trans (hseq1 ▸ hB))
            have := ih i j (by omega) s1 hs1 hs1b
            rw [hseq1, List.length_append, List.length_singleton]
            omega
        · rcases sublist_take_succ_decomp a i s hsa with hA | ⟨s1, hseq1, hs1⟩
          · have hs2a : s2.Sublist (a.take i) :=
              ((List.sublist_append_left s2 [b.getD j ""]).trans (hseq2 ▸ hA))
            have := ih i j (by omega) s2 hs2a hs2
            rw [hseq2, List.length_append, List.length_singleton]
            omega
          · have hs12 : s1 = s2 := by
              have d1 : s.dropLast = s1 := by
                rw [hseq1]
                exact List.dropLast_concat
              have d2 : s.dropLast = s2 := by
                rw [hseq2]
                exact List.dropLast_concat
              rw [← d1, d2]
            have := ih i j (by omega) s1 hs1 (hs12 ▸ hs2)
            rw [hseq1, List.length_append, List.length_singleton]
            omega
      · have hdp : dp a b (i+1) (j+1) = max (dp a b i (j+1)) (dp a b (i+1) j) := by
          simp only [dp, if_neg heq]
        rw [hdp]
        rcases sublist_take_succ_decomp a i s hsa with hA | ⟨s1, hseq1, hs1⟩
        · have := ih i (j+1) (by omega) s hA hsb
          omega
        · rcases sublist_take_succ_decomp b j s hsb with hB | ⟨s2, hseq2, hs2⟩
          · have := ih (i+1) j (by omega) s hsa hB
            omega
          · exfalso
            apply heq
            have h1 : s.getLast? = some (a.getD i "") := by
              rw [hseq1]
              exact List.getLast?_concat _
            have h2 : s.getLast? = some (b.getD j "") := by
              rw [hseq2]
              exact List.getLast?_concat _
            rw [h1] at h2
            exact Option.some.inj h2

/-- A list of entries with strictly increasing positions, each carrying the
line stored at its position, maps to a sublist of the line list. -/
theorem map_line_sublist (a : List String) (f : LcsEntry → Nat) :
    ∀ (l : List LcsEntry) (k : Nat),
      l.Pairwise (fun p q => f p < f q) →
      (∀ e ∈ l, f e < a.length ∧ e.line = a.getD (f e) "") →
      (∀ e ∈ l, k ≤ f e) →
      (l.map LcsEntry.line).Sublist (a.drop k) := by
  intro l
  induction l with
  | nil =>
    intro k _ _ _
    simp
  | cons e rest ih =>
    intro k hpw hbd hge
    rw [List.pairwise_cons] at hpw
    obtain ⟨hlt, hline⟩ := hbd e (by simp)
    have hk : k ≤ f e := hge e (by simp)
    have inner : ∀ (d k2 : Nat), k2 ≤ f e → f e - k2 = d →
        ((e :: rest).map LcsEntry.line).Sublist (a.drop k2) := by
      intro d
      induction d with
      | zero =>
        intro k2 hk2 hdk
        have hke : k2 = f e := by omega
        subst hke
        rw [List.drop_eq_getElem_cons hlt, List.map_cons]
        have hhd : e.line = a[f e] := by
          rw [hline]
          exact List.getD_eq_getElem a "" hlt
        rw [hhd]
        apply List.Sublist.cons₂
        apply ih (f e + 1) hpw.2 (fun p hp => hbd p (by simp [hp]))
        intro p hp
        exact hpw.1 p hp
      | succ d ihd =>
        intro k2 hk2 hdk
        have hka : k2 < a.length := by omega
        rw [List.drop_eq_getElem_cons hka]
        exact List.Sublist.cons _ (ihd (k2 + 1) (by omega) (by omega))
    exact inner (f e - k) k hk rfl

/-- `computeLCS` really computes a longest common subsequence: its matched
lines are a common subsequence of the two line lists, and every common
subsequence is at most as long — so `dp[m][n]` (= the output length, by
`backtrackLCS_length`) is the length of a longest common subsequence in the
literal subsequence sense, not merely by the recurrence. -/
theorem computeLCS_is_longest (a b : List String) :
    ((computeLCS a b).map LcsEntry.line).Sublist a ∧
    ((computeLCS a b).map LcsEntry.line).Sublist b ∧
    ∀ s : List String, s.Sublist a → s.Sublist b →
      s.length ≤ (computeLCS a b).length := by
  have hmem := backtrackLCS_mem a b a.length b.length
  have hpw := backtrackLCS_pairwise a b a.length b.length
  refine ⟨?_, ?_, ?_⟩
  · have h := map_line_sublist a (fun e => e.oldIdx) (computeLCS a b) 0
      (hpw.imp fun hpq => hpq.1)
      (fun e he => ⟨(hmem e he).1, (hmem e he).2.2.2⟩)
      (fun e _ => Nat.zero_le _)
    simpa using h
  · have h := map_line_sublist b (fun e => e.newIdx) (computeLCS a b) 0
      (hpw.imp fun hpq => hpq.2)
      (fun e he => ⟨(hmem e he).2.1, by
        rw [(hmem e he).2.2.2]
        exact (hmem e he).2.2.1⟩)
      (fun e _ => Nat.zero_le _)
    simpa using h
  · intro s hsa hsb
    have h := dp_optimal a b (a.length + b.length) a.length b.length (Nat.le_refl _) s
      (by rw [List.take_length]; exact hsa)
      (by rw [List.take_length]; exact hsb)
    rw [computeLCS, backtrackLCS_length]
    exact h

end SuperLandings
